import Mathlib

/-!
Verification of the tradeboard engine core against its specification.

The Python source is shallowly embedded: rates and prices are modelled as
exact rationals (`ℚ`), Python's `round(x, n)` as round-half-to-even at `n`
decimal digits, Python's `int(x)` as truncation toward zero, dictionaries as
association lists or explicit lookups, and a raised exception as an
`Except`/`Option` failure value.  Calendar months `"YYYY-MM"` and dates
`"YYYY-MM-DD"` are embedded as numeric records; the string comparisons
performed by the source coincide with the numeric key order used here for
the fixed-width digit strings the source manipulates.
-/

namespace Tradeboard

/-- Round-half-to-even of a rational to an integer: the model of Python's
built-in `round(x)`. -/
def rhe (y : ℚ) : ℤ :=
  if y - (⌊y⌋ : ℚ) < 1/2 then ⌊y⌋
  else if 1/2 < y - (⌊y⌋ : ℚ) then ⌊y⌋ + 1
  else if 2 ∣ ⌊y⌋ then ⌊y⌋ else ⌊y⌋ + 1

/-- Model of Python's `round(x, n)`: round-half-to-even at `n` decimal
digits. -/
def roundTo (n : ℕ) (x : ℚ) : ℚ :=
  (rhe (x * (10 : ℚ) ^ n) : ℤ) / (10 : ℚ) ^ n

/-- Truncation of a rational toward zero: the model of Python's `int(x)`
(`-⌊-x⌋ = ⌈x⌉` on the negative branch). -/
def qtrunc (x : ℚ) : ℤ :=
  if 0 ≤ x then ⌊x⌋ else -⌊-x⌋

/-- A calendar month `"YYYY-MM"`. -/
structure Ym where
  y : ℕ
  m : ℕ
deriving DecidableEq

/-- Numeric sort key of a month; for the zero-padded strings the source
manipulates, the source's string order coincides with this key order. -/
def mkey (a : Ym) : ℕ := a.y * 100 + a.m

/-- A calendar date `"YYYY-MM-DD"`. -/
structure Date where
  y : ℕ
  m : ℕ
  d : ℕ
deriving DecidableEq

/-- Numeric sort key of a date (string order on `"YYYY-MM-DD"` for the
source's zero-padded strings). -/
def dkey (a : Date) : ℕ := (a.y * 100 + a.m) * 100 + a.d

/-- `meeting_expected._ym_from_date_str`: the month containing a date. -/
def ym_from_date (a : Date) : Ym := ⟨a.y, a.m⟩

/-- Gregorian leap-year test, as in Python's `calendar` module. -/
def isLeap (y : ℕ) : Bool :=
  (y % 4 == 0 && y % 100 != 0) || y % 400 == 0

/-- `meeting_expected._days_in_month` (`calendar.monthrange(y, m)[1]`). -/
def days_in_month (y m : ℕ) : ℕ :=
  if m = 2 then (if isLeap y then 29 else 28)
  else if m = 4 ∨ m = 6 ∨ m = 9 ∨ m = 11 then 30
  else 31

/-- `meeting_expected._next_month_ym`: `"2026-12" → "2027-01"`. -/
def next_month_ym (a : Ym) : Ym :=
  if a.m = 12 then ⟨a.y + 1, 1⟩ else ⟨a.y, a.m + 1⟩

/-- `meeting_expected._round_to_increment`: snap a rate (%) to the official
increment; a non-positive step returns the rate unchanged (no error). -/
def round_to_increment (rate : ℚ) (increment_bp : ℤ) : ℚ :=
  let step : ℚ := (increment_bp : ℚ) / 100
  if step ≤ 0 then rate
  else roundTo 6 ((rhe (rate / step) : ℚ) * step)

/-- Output record of the meeting engine (`meeting_expected.MeetingPoint`). -/
structure MeetingPoint where
  meetingDate : Date
  month : Ym
  rateAfter : ℚ
  rateRaw : ℚ
  moveAfterBps : ℚ
  moveRawBps : ℚ
  weightBefore : ℚ
  weightAfter : ℚ
deriving DecidableEq

/-- The `month_to_rate` dictionary of `compute_after_meeting_curve`: built by
insertion over the curve, so the last entry for a month wins. -/
def month_to_rate (curve : List (Ym × ℚ)) (a : Ym) : Option ℚ :=
  ((curve.filter (fun p => p.1 = a)).getLast?).map (fun p => p.2)

/-- `days_before = meeting_dt.day - 1` of the loop body. -/
def days_before (a : Date) : ℕ := a.d - 1

/-- `days_after = dim - days_before` of the loop body. -/
def days_after (a : Date) : ℤ :=
  (days_in_month a.y a.m : ℤ) - (days_before a : ℤ)

/-- `w_before = days_before / dim` of the loop body. -/
def w_before (a : Date) : ℚ :=
  (days_before a : ℚ) / (days_in_month a.y a.m : ℚ)

/-- `w_after = 1.0 - w_before` of the loop body. -/
def w_after (a : Date) : ℚ := 1 - w_before a

/-- Step 1 of the loop body: the standard day-weighted back-solve, with the
guard against a numerically unstable tiny `w_after`. -/
def back_solve (r_month prev : ℚ) (a : Date) : ℚ :=
  if w_after a ≤ 1/1000000000 then r_month
  else (r_month - w_before a * prev) / w_after a

/-- Step 2 of the loop body: stability fallback.  If the meeting is too late
in the month or the implied move is absurd, use the next month's rate as a
proxy when available, else clamp around the previous rate. -/
def rate_after_raw (curve : List (Ym × ℚ)) (prev : ℚ) (a : Date)
    (r_month : ℚ) : ℚ :=
  let raw0 := back_solve r_month prev a
  let use_proxy : Prop :=
    days_after a < 5 ∨ 300 < |(raw0 - prev) * 100|
  if use_proxy then
    match month_to_rate curve (next_month_ym (ym_from_date a)) with
    | some rn => rn
    | none => max (min raw0 (prev + 3)) (prev - 3)
  else raw0

/-- The record built at the end of the loop body (lines 167–183 of
`meeting_expected.py`). -/
def mk_meeting_point (curve : List (Ym × ℚ)) (increment_bp : ℤ)
    (prev : ℚ) (a : Date) (r_month : ℚ) : MeetingPoint :=
  let raw := rate_after_raw curve prev a r_month
  let r_after := round_to_increment raw increment_bp
  ⟨a, ym_from_date a,
    roundTo 6 r_after, roundTo 6 raw,
    roundTo 2 ((r_after - prev) * 100), roundTo 4 ((raw - prev) * 100),
    roundTo 6 (w_before a), roundTo 6 (w_after a)⟩

/-- One iteration of the loop of `compute_after_meeting_curve`: state is the
running anchor `prev_after_rate` together with the output accumulator; a date
whose month has no rate point leaves the state untouched (`continue`). -/
def fold_step (curve : List (Ym × ℚ)) (increment_bp : ℤ)
    (st : ℚ × List MeetingPoint) (a : Date) : ℚ × List MeetingPoint :=
  match month_to_rate curve (ym_from_date a) with
  | none => st
  | some r_month =>
      ⟨round_to_increment (rate_after_raw curve st.1 a r_month) increment_bp,
        st.2 ++ [mk_meeting_point curve increment_bp st.1 a r_month]⟩

/-- `sorted(meeting_dates)` (valid dates assumed; Python's stable sort of the
date strings agrees with any sort by `dkey` since equal keys mean equal
dates). -/
def sortDates (l : List Date) : List Date :=
  l.insertionSort (fun a b => dkey a ≤ dkey b)

/-- `meeting_expected.compute_after_meeting_curve`: the meeting loop as a left
fold over the sorted meeting dates, starting from the supplied current
rate. -/
def compute_after_meeting_curve (curve : List (Ym × ℚ)) (dates : List Date)
    (current_rate : ℚ) (increment_bp : ℤ) : List MeetingPoint :=
  ((sortDates dates).foldl (fold_step curve increment_bp)
    ⟨current_rate, []⟩).2

/-- Recursive presentation of the same loop: emits a point and threads the
snapped rate as the next anchor, or skips the date leaving the anchor
unchanged.  Used to state the fold/state-machine claims. -/
def after_meeting_loop (curve : List (Ym × ℚ)) (increment_bp : ℤ) :
    ℚ → List Date → List MeetingPoint
  | _, [] => []
  | prev, a :: ds =>
      match month_to_rate curve (ym_from_date a) with
      | none => after_meeting_loop curve increment_bp prev ds
      | some r_month =>
          mk_meeting_point curve increment_bp prev a r_month ::
            after_meeting_loop curve increment_bp
              (round_to_increment (rate_after_raw curve prev a r_month)
                increment_bp) ds

/-- `next_meeting._step_from_increment`: 25 bps → 0.25 (%). -/
def step_from_increment (increment_bp : ℤ) : ℚ := (increment_bp : ℚ) / 100

/-- `next_meeting._clamp`. -/
def pyclamp (x lo hi : ℚ) : ℚ := max lo (min hi x)

/-- `next_meeting._floor_to_step`: `int(x / step) * step` — note Python's
`int` truncates toward zero, it is not a floor. -/
def floor_to_step (x step : ℚ) : ℚ := (qtrunc (x / step) : ℚ) * step

/-- `next_meeting.compute_distribution_from_expected`.  The returned Python
dict is modelled as the association list of its (distinct) keys in insertion
order. -/
def compute_distribution_from_expected (expected_rate : ℚ)
    (increment_bp : ℤ) (min_rate max_rate : ℚ) : List (ℚ × ℚ) :=
  let step := step_from_increment increment_bp
  if step ≤ 0 then [(expected_rate, 1)]
  else
    let e := pyclamp expected_rate min_rate max_rate
    let lo := floor_to_step e step
    let hi0 := lo + step
    let hi := if max_rate + 1/1000000000000 < hi0 then lo else hi0
    if |e - lo| < 1/1000000000000 ∨ hi = lo then [(roundTo 6 lo, 1)]
    else
      let p_hi := (e - lo) / step
      [(roundTo 6 lo, roundTo 6 (1 - p_hi)), (roundTo 6 hi, roundTo 6 p_hi)]

/-- `next_meeting.probs_cut_hold_hike`: buckets a distribution into
cut/hold/hike mass around the grid-aligned current rate.  When the step is
zero the Python source divides by zero in `_floor_to_step`
(`ZeroDivisionError`), modelled as `none`. -/
def probs_cut_hold_hike (dist : List (ℚ × ℚ)) (current_rate : ℚ)
    (increment_bp : ℤ) : Option (ℚ × ℚ × ℚ) :=
  let step := step_from_increment increment_bp
  if step = 0 then none
  else
    let cur := roundTo 6 (floor_to_step (current_rate + 1/1000000000000) step)
    let p_cut := ((dist.filter
      (fun lp => lp.1 < cur - 1/1000000000000)).map (fun lp => lp.2)).sum
    let p_hike := ((dist.filter
      (fun lp => cur + 1/1000000000000 < lp.1)).map (fun lp => lp.2)).sum
    let p_hold := ((dist.filter (fun lp =>
      ¬ lp.1 < cur - 1/1000000000000 ∧
      ¬ cur + 1/1000000000000 < lp.1)).map (fun lp => lp.2)).sum
    some ⟨roundTo 6 p_cut, roundTo 6 p_hold, roundTo 6 p_hike⟩

/-- `calc_implied.implied_rate_from_price` (also duplicated in
`main.implied_rate_from_price`): converts a futures price to an implied
rate, raising (`Except.error`) on an unknown formula. -/
def implied_rate_from_price (price : ℚ) (price_formula : String) :
    Except String ℚ :=
  if price_formula = "100_minus_rate" then Except.ok (100 - price)
  else if price_formula = "rate_direct" then Except.ok price
  else Except.error ("Unknown price_formula: " ++ price_formula)

/-- A normalized quote row as produced by `main.load_csv_rows`. -/
structure Row where
  symbol : String
  rowName : String
  month : Ym
  price : ℚ
  volume : ℤ
deriving DecidableEq

/-- The dictionary update of `main.pick_one_per_month_max_volume`: a row
replaces the incumbent only when its volume is strictly greater (first-seen
wins ties). -/
def upd (b : Option Row) (r : Row) : Option Row :=
  match b with
  | none => some r
  | some b0 => if b0.volume < r.volume then some r else some b0

/-- One loop iteration of `main.pick_one_per_month_max_volume`: update the
dictionary (as a function from months) at the row's month. -/
def dict_step (f : Ym → Option Row) (r : Row) : Ym → Option Row :=
  fun a => if a = r.month then upd (f r.month) r else f a

/-- The `best_by_month` dictionary of `main.pick_one_per_month_max_volume`
after the full loop. -/
def best_by_month (rows : List Row) : Ym → Option Row :=
  rows.foldl dict_step (fun _ => none)

/-- The sorted list of distinct months appearing in `rows`
(`sorted(best_by_month.keys())`). -/
def sorted_months (rows : List Row) : List Ym :=
  ((rows.map (fun r => r.month)).dedup).insertionSort
    (fun a b => mkey a ≤ mkey b)

/-- `main.pick_one_per_month_max_volume`: one contract per month, the one
with the greatest volume, listed by ascending month. -/
def pick_one_per_month_max_volume (rows : List Row) : List Row :=
  (sorted_months rows).filterMap (best_by_month rows)

/-- A monthly curve point as produced by `main.build_curve`. -/
structure CurvePoint where
  month : Ym
  rate : ℚ
  symbol : String
  price : ℚ
  volume : ℤ
deriving DecidableEq

/-- `main.now_month_utc`: the current month read from the ambient UTC clock.
The ambient clock is made an explicit argument of the embedding; the Python
function takes no argument and reads `datetime.now`. -/
def now_month_utc (clock : Ym) : Ym := clock

/-- `main.strip_past_months`: drops curve points strictly before the current
UTC month.  The Python function takes only the curve — the cutoff comes from
the ambient clock, here explicit. -/
def strip_past_months (clock : Ym) (curve : List CurvePoint) :
    List CurvePoint :=
  curve.filter (fun p => mkey (now_month_utc clock) ≤ mkey p.month)

/-- A monthly rate point of the spec's data model (§3 `MonthlyRatePoint`),
used by the spec-modelled `densifyLinear`. -/
structure MRPoint where
  month : Ym
  rate : ℚ
  isSynthetic : Bool
  sourceQuote : Option String
deriving DecidableEq

/-- Month-index linearization of the spec (§4.1):
`year*12 + (month-1)`. -/
def month_index (a : Ym) : ℕ := a.y * 12 + (a.m - 1)

/-- Inverse of `month_index`. -/
def ym_of_index (i : ℕ) : Ym := ⟨i / 12, i % 12 + 1⟩

/-- Modelled from the spec: the synthetic points `densifyLinear` inserts
between two consecutive real points (§4.1) — no `densifyLinear` exists under
`src/`; this follows the spec's words: for the k-th missing month the
interpolation fraction is `t = k / gap` and
`rate = r0 + (r1 - r0) * t`, rounded to 4 decimals, with
`isSynthetic = true` and no source quote. -/
def interp_points (p q : MRPoint) : List MRPoint :=
  let i0 := month_index p.month
  let i1 := month_index q.month
  if i1 ≤ i0 + 1 then []
  else
    (List.range (i1 - i0 - 1)).map fun k =>
      ⟨ym_of_index (i0 + k + 1),
        roundTo 4 (p.rate + (q.rate - p.rate) * ((k : ℚ) + 1) /
          ((i1 : ℚ) - (i0 : ℚ))),
        true, none⟩

/-- Modelled from the spec: the walk of `densifyLinear` over consecutive
pairs of curve points. -/
def densify_aux (p : MRPoint) : List MRPoint → List MRPoint
  | [] => []
  | q :: rest => interp_points p q ++ q :: densify_aux q rest

/-- Modelled from the spec: `densifyLinear(curve)` (§4.1) — absent from
`src/`; inserts linearly interpolated synthetic points into every gap of
more than one month between consecutive points, and returns the input
unchanged when it has fewer than two points. -/
def densify_linear (curve : List MRPoint) : List MRPoint :=
  match curve with
  | [] => []
  | [p] => [p]
  | p :: q :: rest => p :: densify_aux p (q :: rest)

/-- The spec's reading of the distribution contract (§4.3), with `lo`
computed by a true floor — written from the spec's words, to be compared
with `compute_distribution_from_expected`, which truncates toward zero. -/
def distribution_spec (expected_rate : ℚ) (increment_bp : ℤ)
    (min_rate max_rate : ℚ) : List (ℚ × ℚ) :=
  let step := step_from_increment increment_bp
  if step ≤ 0 then [(expected_rate, 1)]
  else
    let e := pyclamp expected_rate min_rate max_rate
    let lo := (⌊e / step⌋ : ℚ) * step
    let hi0 := lo + step
    let hi := if max_rate + 1/1000000000000 < hi0 then lo else hi0
    if |e - lo| < 1/1000000000000 ∨ hi = lo then [(roundTo 6 lo, 1)]
    else
      let p_hi := (e - lo) / step
      [(roundTo 6 lo, roundTo 6 (1 - p_hi)), (roundTo 6 hi, roundTo 6 p_hi)]

/-- The spec's month-fallback rule for C1 (§4.2 step 1, from the spec's
words): resolve a meeting month to the first available month `≥` it in the
curve, together with that month's rate. -/
def resolve_month_spec (curve : List (Ym × ℚ)) (a : Ym) :
    Option (Ym × ℚ) :=
  ((curve.filter (fun p => mkey a ≤ mkey p.1)).insertionSort
    (fun p q => mkey p.1 ≤ mkey q.1)).head?

/-! ### Properties of the rounding model -/

/-- `x` is representable with `n` decimal digits. -/
def isMult (n : ℕ) (x : ℚ) : Prop := ∃ k : ℤ, x = (k : ℚ) / (10 : ℚ) ^ n

theorem rhe_intCast (z : ℤ) : rhe (z : ℚ) = z := by
  simp [rhe]

theorem le_rhe {A : ℤ} {y : ℚ} (h : (A : ℚ) ≤ y) : A ≤ rhe y := by
  have hA : A ≤ ⌊y⌋ := Int.le_floor.mpr h
  unfold rhe
  split_ifs <;> omega

theorem rhe_le {B : ℤ} {y : ℚ} (h : y ≤ (B : ℚ)) : rhe y ≤ B := by
  have hB : ⌈y⌉ ≤ B := Int.ceil_le.mpr h
  have hfc : ⌊y⌋ ≤ ⌈y⌉ := Int.floor_le_ceil y
  unfold rhe
  split_ifs with h1 h2 h3
  · omega
  · have : ⌊y⌋ < ⌈y⌉ := Int.lt_ceil.mpr (by linarith)
    omega
  · omega
  · have : ⌊y⌋ < ⌈y⌉ := Int.lt_ceil.mpr (by linarith)
    omega

theorem rhe_add_rhe_even {M : ℤ} (hM : 2 ∣ M) (y : ℚ) :
    rhe y + rhe ((M : ℚ) - y) = M := by
  have hfl : ⌊(M : ℚ) - y⌋ = M - ⌈y⌉ := by
    rw [sub_eq_add_neg, Int.floor_int_add, Int.floor_neg, sub_eq_add_neg]
  have hfr0 : 0 ≤ y - (⌊y⌋ : ℚ) := by
    have := Int.floor_le y
    linarith
  have hfr1 : y - (⌊y⌋ : ℚ) < 1 := by
    have := Int.lt_floor_add_one y
    push_cast at this ⊢
    linarith
  by_cases hz : y - (⌊y⌋ : ℚ) = 0
  · have hy : y = (⌊y⌋ : ℚ) := by linarith
    have hc : ⌈y⌉ = ⌊y⌋ := by
      conv_lhs => rw [hy]
      exact Int.ceil_intCast _
    have h2 : (M : ℚ) - y - ((M - ⌈y⌉ : ℤ) : ℚ) = 0 := by
      rw [hc]
      push_cast
      linarith
    unfold rhe
    rw [hfl, h2, hc]
    split_ifs <;> first | omega | (exfalso; linarith)
  · have hgt : 0 < y - (⌊y⌋ : ℚ) := lt_of_le_of_ne hfr0 (Ne.symm hz)
    have hc : ⌈y⌉ = ⌊y⌋ + 1 := by
      have h1 : ⌈y⌉ ≤ ⌊y⌋ + 1 := by
        apply Int.ceil_le.mpr
        push_cast
        linarith
      have h2 : ⌊y⌋ < ⌈y⌉ := Int.lt_ceil.mpr (by linarith)
      omega
    have hr2 : (M : ℚ) - y - ((M - ⌈y⌉ : ℤ) : ℚ) = 1 - (y - (⌊y⌋ : ℚ)) := by
      rw [hc]
      push_cast
      ring
    unfold rhe
    rw [hfl, hr2, hc]
    split_ifs <;> first | omega | (exfalso; linarith)

theorem roundTo_isMult (n : ℕ) (x : ℚ) : isMult n (roundTo n x) :=
  ⟨rhe (x * (10 : ℚ) ^ n), rfl⟩

theorem roundTo_eq_self {n : ℕ} {x : ℚ} (h : isMult n x) :
    roundTo n x = x := by
  obtain ⟨k, hk⟩ := h
  have hp : ((10 : ℚ) ^ n) ≠ 0 := by positivity
  have hx : x * (10 : ℚ) ^ n = (k : ℚ) := by
    rw [hk]
    field_simp
  rw [roundTo, hx, rhe_intCast, hk]

theorem roundTo_idem (n : ℕ) (x : ℚ) :
    roundTo n (roundTo n x) = roundTo n x :=
  roundTo_eq_self (roundTo_isMult n x)

theorem roundTo_add_roundTo_one (x : ℚ) :
    roundTo 6 x + roundTo 6 (1 - x) = 1 := by
  have hM : (2 : ℤ) ∣ 1000000 := by decide
  have h := rhe_add_rhe_even hM (x * (10 : ℚ) ^ 6)
  have harg : ((1000000 : ℤ) : ℚ) - x * (10 : ℚ) ^ 6 =
      (1 - x) * (10 : ℚ) ^ 6 := by
    push_cast
    ring
  rw [harg] at h
  have hp : ((10 : ℚ) ^ 6) ≠ 0 := by positivity
  unfold roundTo
  have := congrArg (fun z : ℤ => (z : ℚ) / (10 : ℚ) ^ 6) h
  simp only at this
  push_cast at this ⊢
  field_simp at this ⊢
  linarith

theorem roundTo_mem_of_mult {n : ℕ} {a b x : ℚ} (ha : isMult n a)
    (hb : isMult n b) (hax : a ≤ x) (hxb : x ≤ b) :
    a ≤ roundTo n x ∧ roundTo n x ≤ b := by
  obtain ⟨ka, hka⟩ := ha
  obtain ⟨kb, hkb⟩ := hb
  have hp : (0 : ℚ) < (10 : ℚ) ^ n := by positivity
  have h1 : (ka : ℚ) ≤ x * (10 : ℚ) ^ n := by
    rw [hka] at hax
    rw [div_le_iff₀ hp] at hax
    linarith
  have h2 : x * (10 : ℚ) ^ n ≤ (kb : ℚ) := by
    rw [hkb] at hxb
    rw [le_div_iff₀ hp] at hxb
    linarith
  have hlo := le_rhe h1
  have hhi := rhe_le h2
  have hlo' : (ka : ℚ) ≤ (rhe (x * (10 : ℚ) ^ n) : ℚ) := by exact_mod_cast hlo
  have hhi' : ((rhe (x * (10 : ℚ) ^ n) : ℤ) : ℚ) ≤ (kb : ℚ) := by
    exact_mod_cast hhi
  constructor
  · rw [hka, roundTo]
    gcongr
  · rw [hkb, roundTo]
    gcongr

theorem roundTo_of_floor_lt {n : ℕ} {x : ℚ} {f : ℤ}
    (hf : ⌊x * (10 : ℚ) ^ n⌋ = f) (h : x * (10 : ℚ) ^ n - f < 1/2) :
    roundTo n x = (f : ℚ) / (10 : ℚ) ^ n := by
  unfold roundTo rhe
  rw [hf, if_pos h]

theorem roundTo_of_floor_gt {n : ℕ} {x : ℚ} {f : ℤ}
    (hf : ⌊x * (10 : ℚ) ^ n⌋ = f) (h : 1/2 < x * (10 : ℚ) ^ n - f) :
    roundTo n x = ((f : ℚ) + 1) / (10 : ℚ) ^ n := by
  unfold roundTo rhe
  rw [hf, if_neg (by linarith), if_pos h]
  push_cast
  ring

theorem isMult_sum {n : ℕ} {l : List ℚ} (h : ∀ x ∈ l, isMult n x) :
    isMult n l.sum := by
  induction l with
  | nil => exact ⟨0, by simp⟩
  | cons a t ih =>
      obtain ⟨ka, hka⟩ := h a (by simp)
      obtain ⟨kt, hkt⟩ := ih (fun x hx => h x (by simp [hx]))
      refine ⟨ka + kt, ?_⟩
      rw [List.sum_cons, hka, hkt]
      push_cast
      ring

/-! ### Structure of the meeting loop -/

instance dateLeTotal : IsTotal Date (fun a b => dkey a ≤ dkey b) :=
  ⟨fun a b => Nat.le_total (dkey a) (dkey b)⟩

instance dateLeTrans : IsTrans Date (fun a b => dkey a ≤ dkey b) :=
  ⟨fun _ _ _ h1 h2 => Nat.le_trans h1 h2⟩

instance ymLeTotal : IsTotal Ym (fun a b => mkey a ≤ mkey b) :=
  ⟨fun a b => Nat.le_total (mkey a) (mkey b)⟩

instance ymLeTrans : IsTrans Ym (fun a b => mkey a ≤ mkey b) :=
  ⟨fun _ _ _ h1 h2 => Nat.le_trans h1 h2⟩

theorem loop_cons_none {curve : List (Ym × ℚ)} {inc : ℤ} {prev : ℚ}
    {a : Date} {ds : List Date}
    (hm : month_to_rate curve (ym_from_date a) = none) :
    after_meeting_loop curve inc prev (a :: ds) =
      after_meeting_loop curve inc prev ds := by
  simp [after_meeting_loop, hm]

theorem loop_cons_some {curve : List (Ym × ℚ)} {inc : ℤ} {prev : ℚ}
    {a : Date} {ds : List Date} {r : ℚ}
    (hm : month_to_rate curve (ym_from_date a) = some r) :
    after_meeting_loop curve inc prev (a :: ds) =
      mk_meeting_point curve inc prev a r ::
        after_meeting_loop curve inc
          (round_to_increment (rate_after_raw curve prev a r) inc) ds := by
  simp [after_meeting_loop, hm]

theorem foldl_fold_step_eq_loop (curve : List (Ym × ℚ)) (inc : ℤ) :
    ∀ (L : List Date) (prev : ℚ) (acc : List MeetingPoint),
      (L.foldl (fold_step curve inc) ⟨prev, acc⟩).2 =
        acc ++ after_meeting_loop curve inc prev L := by
  intro L
  induction L with
  | nil => intro prev acc; simp [after_meeting_loop]
  | cons a ds ih =>
      intro prev acc
      rw [List.foldl_cons]
      cases hm : month_to_rate curve (ym_from_date a) with
      | none =>
          have hstep : fold_step curve inc (prev, acc) a = (prev, acc) := by
            unfold fold_step
            rw [hm]
          rw [hstep, ih, loop_cons_none hm]
      | some r =>
          have hstep : fold_step curve inc (prev, acc) a =
              (round_to_increment (rate_after_raw curve prev a r) inc,
                acc ++ [mk_meeting_point curve inc prev a r]) := by
            unfold fold_step
            rw [hm]
          rw [hstep, ih, loop_cons_some hm]
          simp

/-- The loop of `compute_after_meeting_curve` is the clean sequential
recursion `after_meeting_loop` started at the current rate. -/
theorem compute_eq_loop (curve : List (Ym × ℚ)) (dates : List Date)
    (cur : ℚ) (inc : ℤ) :
    compute_after_meeting_curve curve dates cur inc =
      after_meeting_loop curve inc cur (sortDates dates) := by
  unfold compute_after_meeting_curve
  rw [foldl_fold_step_eq_loop]
  simp

theorem loop_map_date_sublist (curve : List (Ym × ℚ)) (inc : ℤ) :
    ∀ (L : List Date) (prev : ℚ),
      ((after_meeting_loop curve inc prev L).map
        (fun p => p.meetingDate)).Sublist L := by
  intro L
  induction L with
  | nil => intro prev; simp [after_meeting_loop]
  | cons a ds ih =>
      intro prev
      unfold after_meeting_loop
      cases hm : month_to_rate curve (ym_from_date a) with
      | none => exact (ih prev).cons a
      | some r =>
          simp only [List.map_cons, mk_meeting_point]
          exact (ih _).cons₂ a

theorem loop_skips_unresolved (curve : List (Ym × ℚ)) (inc : ℤ) :
    ∀ (L : List Date) (prev : ℚ),
      after_meeting_loop curve inc prev L =
        after_meeting_loop curve inc prev
          (L.filter (fun a => (month_to_rate curve (ym_from_date a)).isSome)) := by
  intro L
  induction L with
  | nil => intro prev; rfl
  | cons a ds ih =>
      intro prev
      cases hm : month_to_rate curve (ym_from_date a) with
      | none =>
          rw [List.filter_cons_of_neg (by simp [hm])]
          rw [loop_cons_none hm, ih]
      | some r =>
          rw [List.filter_cons_of_pos (by simp [hm])]
          rw [loop_cons_some hm, loop_cons_some hm, ih]

theorem sortDates_sorted (l : List Date) :
    (sortDates l).Pairwise (fun a b => dkey a ≤ dkey b) :=
  List.sorted_insertionSort (fun a b => dkey a ≤ dkey b) l

theorem days_in_month_ge_28 (y m : ℕ) : 28 ≤ days_in_month y m := by
  unfold days_in_month
  split_ifs <;> norm_num

theorem w_before_day_one {a : Date} (h : a.d = 1) : w_before a = 0 := by
  unfold w_before days_before
  rw [h]
  norm_num

theorem back_solve_day_one {r prev : ℚ} {a : Date} (h : a.d = 1) :
    back_solve r prev a = r := by
  unfold back_solve w_after
  rw [w_before_day_one h]
  norm_num

theorem days_after_day_one {a : Date} (h : a.d = 1) :
    days_after a = (days_in_month a.y a.m : ℤ) := by
  unfold days_after days_before
  rw [h]
  norm_num

theorem rate_after_raw_no_guard {curve : List (Ym × ℚ)} {prev : ℚ}
    {a : Date} {r : ℚ} (h1 : ¬ days_after a < 5)
    (h2 : ¬ 300 < |(back_solve r prev a - prev) * 100|) :
    rate_after_raw curve prev a r = back_solve r prev a := by
  unfold rate_after_raw
  rw [if_neg]
  rw [not_or]
  exact ⟨h1, h2⟩

theorem rate_after_raw_guard_next {curve : List (Ym × ℚ)} {prev : ℚ}
    {a : Date} {r rn : ℚ}
    (h : days_after a < 5 ∨ 300 < |(back_solve r prev a - prev) * 100|)
    (hn : month_to_rate curve (next_month_ym (ym_from_date a)) = some rn) :
    rate_after_raw curve prev a r = rn := by
  unfold rate_after_raw
  rw [if_pos h, hn]

theorem rate_after_raw_guard_clamp {curve : List (Ym × ℚ)} {prev : ℚ}
    {a : Date} {r : ℚ}
    (h : days_after a < 5 ∨ 300 < |(back_solve r prev a - prev) * 100|)
    (hn : month_to_rate curve (next_month_ym (ym_from_date a)) = none) :
    rate_after_raw curve prev a r =
      max (min (back_solve r prev a) (prev + 3)) (prev - 3) := by
  unfold rate_after_raw
  rw [if_pos h, hn]

theorem mk_meeting_point_rateRaw (curve : List (Ym × ℚ)) (inc : ℤ)
    (prev : ℚ) (a : Date) (r : ℚ) :
    (mk_meeting_point curve inc prev a r).rateRaw =
      roundTo 6 (rate_after_raw curve prev a r) := rfl

theorem sortDates_singleton (a : Date) : sortDates [a] = [a] := rfl

/-! ### Distribution lemmas -/

theorem qtrunc_eq_floor {x : ℚ} (h : 0 ≤ x) : qtrunc x = ⌊x⌋ := by
  unfold qtrunc
  rw [if_pos h]

theorem step_nonpos {inc : ℤ} (h : inc ≤ 0) :
    step_from_increment inc ≤ 0 := by
  unfold step_from_increment
  have h' : (inc : ℚ) ≤ 0 := by exact_mod_cast h
  linarith

theorem dist_step_nonpos {e : ℚ} {inc : ℤ} {minr maxr : ℚ} (h : inc ≤ 0) :
    compute_distribution_from_expected e inc minr maxr = [(e, 1)] := by
  unfold compute_distribution_from_expected
  rw [if_pos (step_nonpos h)]

theorem dist_values_isMult (e : ℚ) (inc : ℤ) (minr maxr : ℚ) :
    ∀ lp ∈ compute_distribution_from_expected e inc minr maxr,
      isMult 6 lp.2 := by
  intro lp hlp
  simp only [compute_distribution_from_expected] at hlp
  split_ifs at hlp <;>
    first
      | (simp only [List.mem_singleton] at hlp
         rw [hlp]
         exact ⟨1000000, by norm_num⟩)
      | (rcases List.mem_cons.mp hlp with h | h
         · rw [h]
           exact roundTo_isMult 6 _
         · simp only [List.mem_singleton] at h
           rw [h]
           exact roundTo_isMult 6 _)

theorem dist_sum_one (e : ℚ) (inc : ℤ) (minr maxr : ℚ) :
    ((compute_distribution_from_expected e inc minr maxr).map
      (fun lp => lp.2)).sum = 1 := by
  simp only [compute_distribution_from_expected]
  split_ifs <;>
    first
      | (simp
         done)
      | (simp only [List.map_cons, List.map_nil, List.sum_cons,
          List.sum_nil, add_zero]
         have h := roundTo_add_roundTo_one
           (1 - (pyclamp e minr maxr -
             floor_to_step (pyclamp e minr maxr) (step_from_increment inc)) /
             step_from_increment inc)
         rw [sub_sub_cancel] at h
         exact h)

theorem filter_three_sum (l : List (ℚ × ℚ)) (c ε : ℚ)
    (hε : c - ε ≤ c + ε) :
    ((l.filter (fun lp => lp.1 < c - ε)).map (fun lp => lp.2)).sum +
      ((l.filter (fun lp => ¬ lp.1 < c - ε ∧ ¬ c + ε < lp.1)).map
        (fun lp => lp.2)).sum +
      ((l.filter (fun lp => c + ε < lp.1)).map (fun lp => lp.2)).sum =
      (l.map (fun lp => lp.2)).sum := by
  induction l with
  | nil => simp
  | cons a t ih =>
      simp only [List.filter_cons, decide_eq_true_eq]
      by_cases h1 : a.1 < c - ε
      · have h3 : ¬ c + ε < a.1 := by
          intro hc
          linarith
        have h2 : ¬ (¬ a.1 < c - ε ∧ ¬ c + ε < a.1) := by tauto
        rw [if_pos h1, if_neg h2, if_neg h3]
        simp only [List.map_cons, List.sum_cons]
        linarith [ih]
      · by_cases h3 : c + ε < a.1
        · have h2 : ¬ (¬ a.1 < c - ε ∧ ¬ c + ε < a.1) := by tauto
          rw [if_neg h1, if_neg h2, if_pos h3]
          simp only [List.map_cons, List.sum_cons]
          linarith [ih]
        · have h2 : ¬ a.1 < c - ε ∧ ¬ c + ε < a.1 := ⟨h1, h3⟩
          rw [if_neg h1, if_pos h2, if_neg h3]
          simp only [List.map_cons, List.sum_cons]
          linarith [ih]

/-- Total of an optional cut/hold/hike triple (0 when the call raised). -/
def sum3 : Option (ℚ × ℚ × ℚ) → ℚ
  | none => 0
  | some t => t.1 + t.2.1 + t.2.2

theorem round_to_increment_pos {r : ℚ} {inc : ℤ} (h : 0 < inc) :
    round_to_increment r inc =
      roundTo 6 ((rhe (r / ((inc : ℚ) / 100)) : ℚ) * ((inc : ℚ) / 100)) := by
  have hpos : (0 : ℚ) < (inc : ℚ) / 100 := by
    have : (0 : ℚ) < (inc : ℚ) := by exact_mod_cast h
    positivity
  unfold round_to_increment
  rw [if_neg (not_le.mpr hpos)]

/-- With a positive increment, the emitted `rateAfter` field coincides with
the anchor value threaded to the next iteration. -/
theorem rateAfter_eq_anchor {curve : List (Ym × ℚ)} {inc : ℤ} {prev : ℚ}
    {a : Date} {r : ℚ} (h : 0 < inc) :
    (mk_meeting_point curve inc prev a r).rateAfter =
      round_to_increment (rate_after_raw curve prev a r) inc := by
  show roundTo 6 (round_to_increment (rate_after_raw curve prev a r) inc) = _
  rw [round_to_increment_pos h]
  exact roundTo_idem 6 _

/-! ### Structure of the per-month selection -/

theorem foldl_dict_step_eq (rows : List Row) :
    ∀ (f : Ym → Option Row) (m : Ym),
      (rows.foldl dict_step f) m =
        (rows.filter (fun r => r.month = m)).foldl upd (f m) := by
  induction rows with
  | nil => intro f m; rfl
  | cons r t ih =>
      intro f m
      rw [List.foldl_cons, ih]
      by_cases hm : r.month = m
      · rw [List.filter_cons_of_pos (by simp [hm]), List.foldl_cons]
        congr 1
        unfold dict_step
        rw [if_pos hm.symm, hm]
      · rw [List.filter_cons_of_neg (by simp [hm])]
        congr 1
        unfold dict_step
        rw [if_neg (fun h => hm h.symm)]

theorem foldl_upd_first_max :
    ∀ (l : List Row) (b : Row),
      ∃ c pre post, l.foldl upd (some b) = some c ∧
        b :: l = pre ++ c :: post ∧
        (∀ x ∈ pre, x.volume < c.volume) ∧
        (∀ x ∈ post, x.volume ≤ c.volume) := by
  intro l
  induction l with
  | nil =>
      intro b
      exact ⟨b, [], [], rfl, rfl, by simp, by simp⟩
  | cons r t ih =>
      intro b
      rw [List.foldl_cons]
      by_cases h : b.volume < r.volume
      · have hupd : upd (some b) r = some r := by
          simp only [upd]
          rw [if_pos h]
        rw [hupd]
        obtain ⟨c, pre, post, h1, h2, h3, h4⟩ := ih r
        have hrc : r.volume ≤ c.volume := by
          cases pre with
          | nil =>
              rw [List.nil_append] at h2
              injection h2 with hrc' _
              rw [hrc']
          | cons p ps =>
              rw [List.cons_append] at h2
              injection h2 with hrp _
              rw [hrp]
              exact le_of_lt (h3 p (List.mem_cons_self p ps))
        refine ⟨c, b :: pre, post, h1, ?_, ?_, h4⟩
        · rw [List.cons_append, ← h2]
        · intro x hx
          rcases List.mem_cons.mp hx with rfl | hx'
          · exact lt_of_lt_of_le h hrc
          · exact h3 x hx'
      · have hupd : upd (some b) r = some b := by
          simp only [upd]
          rw [if_neg h]
        rw [hupd]
        obtain ⟨c, pre, post, h1, h2, h3, h4⟩ := ih b
        cases pre with
        | nil =>
            rw [List.nil_append] at h2
            injection h2 with hbc ht
            refine ⟨c, [], r :: post, h1, ?_, by simp, ?_⟩
            · rw [List.nil_append, ← hbc, ← ht]
            · intro x hx
              rcases List.mem_cons.mp hx with rfl | hx'
              · rw [← hbc]
                exact not_lt.mp h
              · exact h4 x hx'
        | cons p ps =>
            rw [List.cons_append] at h2
            injection h2 with hbp hts
            refine ⟨c, b :: r :: ps, post, h1, ?_, ?_, h4⟩
            · rw [List.cons_append, List.cons_append, hts]
            · intro x hx
              have hpvol : p.volume < c.volume :=
                h3 p (List.mem_cons_self p ps)
              rcases List.mem_cons.mp hx with rfl | hx'
              · rw [hbp]
                exact hpvol
              · rcases List.mem_cons.mp hx' with rfl | hx''
                · calc x.volume ≤ b.volume := not_lt.mp h
                  _ = p.volume := by rw [hbp]
                  _ < c.volume := hpvol
                · exact h3 x (List.mem_cons_of_mem p hx'')

theorem best_by_month_spec (rows : List Row) (m : Ym)
    (hne : rows.filter (fun r => r.month = m) ≠ []) :
    ∃ c pre post, best_by_month rows m = some c ∧
      rows.filter (fun r => r.month = m) = pre ++ c :: post ∧
      (∀ x ∈ pre, x.volume < c.volume) ∧
      (∀ x ∈ post, x.volume ≤ c.volume) := by
  unfold best_by_month
  rw [foldl_dict_step_eq]
  cases hg : rows.filter (fun r => r.month = m) with
  | nil => exact absurd hg hne
  | cons r g =>
      rw [List.foldl_cons]
      obtain ⟨c, pre, post, h1, h2, h3, h4⟩ := foldl_upd_first_max g r
      exact ⟨c, pre, post, h1, h2, h3, h4⟩

theorem best_by_month_month (rows : List Row) (m : Ym) (c : Row)
    (h : best_by_month rows m = some c) : c.month = m := by
  by_cases hne : rows.filter (fun r => r.month = m) = []
  · unfold best_by_month at h
    rw [foldl_dict_step_eq, hne] at h
    exact absurd h (by simp)
  · obtain ⟨c', pre, post, h1, h2, h3, h4⟩ := best_by_month_spec rows m hne
    rw [h] at h1
    injection h1 with hcc
    have hcmem : c ∈ rows.filter (fun r => r.month = m) := by
      rw [h2, hcc]
      exact List.mem_append_right pre (List.mem_cons_self c' post)
    have := List.mem_filter.mp hcmem
    simpa using this.2

theorem filterMap_best_sorted_rows : ∀ rows : List Row,
    (rows.map (fun r => r.month)).Nodup →
    (rows.map (fun r => r.month)).filterMap (best_by_month rows) = rows := by
  intro rows
  induction rows with
  | nil => intro _; rfl
  | cons r t ih =>
      intro hnd
      have hnotin : r.month ∉ t.map (fun x => x.month) :=
        (List.nodup_cons.mp hnd).1
      have htfilter : t.filter (fun x => x.month = r.month) = [] := by
        rw [List.filter_eq_nil_iff]
        intro x hx
        simp only [decide_eq_true_eq]
        intro hc
        exact hnotin (by rw [← hc]; exact List.mem_map_of_mem _ hx)
      have hbest_r : best_by_month (r :: t) r.month = some r := by
        unfold best_by_month
        rw [foldl_dict_step_eq, List.filter_cons_of_pos (by simp), htfilter]
        rfl
      rw [List.map_cons, List.filterMap_cons, hbest_r]
      have hcongr : (t.map (fun x => x.month)).filterMap
          (best_by_month (r :: t)) =
          (t.map (fun x => x.month)).filterMap (best_by_month t) := by
        apply List.filterMap_congr
        intro m hm
        unfold best_by_month
        rw [foldl_dict_step_eq, foldl_dict_step_eq,
          List.filter_cons_of_neg]
        simp only [decide_eq_true_eq]
        intro hc
        exact hnotin (by rw [hc]; exact hm)
      rw [hcongr, ih (List.nodup_cons.mp hnd).2]

theorem filterMap_best_months_sublist (rows : List Row) :
    ∀ l : List Ym,
      ((l.filterMap (best_by_month rows)).map
        (fun r => r.month)).Sublist l := by
  intro l
  induction l with
  | nil => simp
  | cons m t ih =>
      rw [List.filterMap_cons]
      cases hb : best_by_month rows m with
      | none => exact ih.cons m
      | some c =>
          rw [List.map_cons, best_by_month_month rows m c hb]
          exact ih.cons₂ m

/-! ### Structure of the spec-modelled densification -/

theorem month_index_ym_of_index (i : ℕ) :
    month_index (ym_of_index i) = i := by
  unfold month_index ym_of_index
  simp only [Nat.add_sub_cancel]
  omega

theorem densify_aux_sublist :
    ∀ (l : List MRPoint) (p : MRPoint), l.Sublist (densify_aux p l) := by
  intro l
  induction l with
  | nil => intro p; simp [densify_aux]
  | cons q rest ih =>
      intro p
      show (q :: rest).Sublist
        (interp_points p q ++ q :: densify_aux q rest)
      exact List.Sublist.trans ((ih q).cons₂ q)
        (List.sublist_append_right _ _)

theorem densify_aux_mem :
    ∀ (l : List MRPoint) (p x : MRPoint), x ∈ densify_aux p l →
      x ∈ l ∨ ∃ a b, (a, b) ∈ (p :: l).zip l ∧ x ∈ interp_points a b := by
  intro l
  induction l with
  | nil =>
      intro p x hx
      simp [densify_aux] at hx
  | cons q rest ih =>
      intro p x hx
      simp only [densify_aux] at hx
      rcases List.mem_append.mp hx with h | h
      · right
        refine ⟨p, q, ?_, h⟩
        rw [List.zip_cons_cons]
        exact List.mem_cons_self _ _
      · rcases List.mem_cons.mp h with rfl | h'
        · exact Or.inl (List.mem_cons_self _ _)
        · rcases ih q x h' with h'' | ⟨a, b, hab, hin⟩
          · exact Or.inl (List.mem_cons_of_mem q h'')
          · right
            refine ⟨a, b, ?_, hin⟩
            rw [List.zip_cons_cons]
            exact List.mem_cons_of_mem _ hab

theorem densify_mem (c : List MRPoint) (x : MRPoint)
    (hx : x ∈ densify_linear c) :
    x ∈ c ∨ ∃ a b, (a, b) ∈ c.zip c.tail ∧ x ∈ interp_points a b := by
  match c with
  | [] => exact Or.inl hx
  | [p] => exact Or.inl hx
  | p :: q :: rest =>
      simp only [densify_linear] at hx
      rcases List.mem_cons.mp hx with rfl | h
      · exact Or.inl (List.mem_cons_self _ _)
      · rcases densify_aux_mem (q :: rest) p x h with h' | ⟨a, b, hab, hin⟩
        · exact Or.inl (List.mem_cons_of_mem p h')
        · exact Or.inr ⟨a, b, hab, hin⟩

theorem interp_points_spec {p q x : MRPoint}
    (hx : x ∈ interp_points p q) :
    x.isSynthetic = true ∧ x.sourceQuote = none ∧
    month_index p.month < month_index x.month ∧
    month_index x.month < month_index q.month ∧
    (roundTo 4 p.rate = p.rate → roundTo 4 q.rate = q.rate →
      min p.rate q.rate ≤ x.rate ∧ x.rate ≤ max p.rate q.rate) := by
  simp only [interp_points] at hx
  split_ifs at hx with hgap
  · simp at hx
  · rcases List.mem_map.mp hx with ⟨k, hk, hxeq⟩
    rw [List.mem_range] at hk
    have hgap' : month_index p.month + 1 < month_index q.month := by
      omega
    subst hxeq
    refine ⟨rfl, rfl, ?_, ?_, ?_⟩
    · show month_index p.month <
        month_index (ym_of_index (month_index p.month + k + 1))
      rw [month_index_ym_of_index]
      omega
    · show month_index (ym_of_index (month_index p.month + k + 1)) <
        month_index q.month
      rw [month_index_ym_of_index]
      omega
    · intro hp hq
      have hd : (0 : ℚ) <
          (month_index q.month : ℚ) - (month_index p.month : ℚ) := by
        have : (month_index p.month : ℚ) < (month_index q.month : ℚ) := by
          exact_mod_cast (by omega : month_index p.month <
            month_index q.month)
        linarith
      have hkq : (k : ℚ) + 1 ≤
          (month_index q.month : ℚ) - (month_index p.month : ℚ) := by
        have hn : (k + 1 : ℕ) + month_index p.month ≤
            month_index q.month := by omega
        have := (Nat.cast_le (α := ℚ)).mpr hn
        push_cast at this
        linarith
      have ht0 : (0 : ℚ) ≤ ((k : ℚ) + 1) /
          ((month_index q.month : ℚ) - (month_index p.month : ℚ)) := by
        positivity
      have ht1 : ((k : ℚ) + 1) /
          ((month_index q.month : ℚ) - (month_index p.month : ℚ)) ≤ 1 := by
        rw [div_le_one hd]
        exact hkq
      show min p.rate q.rate ≤
          roundTo 4 (p.rate + (q.rate - p.rate) * ((k : ℚ) + 1) /
            ((month_index q.month : ℚ) - (month_index p.month : ℚ))) ∧ _
      rw [mul_div_assoc]
      have hbounds : min p.rate q.rate ≤
          p.rate + (q.rate - p.rate) * (((k : ℚ) + 1) /
            ((month_index q.month : ℚ) - (month_index p.month : ℚ))) ∧
          p.rate + (q.rate - p.rate) * (((k : ℚ) + 1) /
            ((month_index q.month : ℚ) - (month_index p.month : ℚ))) ≤
            max p.rate q.rate := by
        rcases le_total p.rate q.rate with hple | hqle
        · rw [min_eq_left hple, max_eq_right hple]
          constructor
          · have := mul_nonneg (sub_nonneg.mpr hple) ht0
            linarith
          · have := mul_le_mul_of_nonneg_left ht1
              (sub_nonneg.mpr hple)
            linarith
        · rw [min_eq_right hqle, max_eq_left hqle]
          constructor
          · have := mul_le_mul_of_nonpos_left ht1
              (sub_nonpos.mpr hqle)
            linarith
          · have h0 := mul_nonpos_iff.mpr
              (Or.inr ⟨sub_nonpos.mpr hqle, ht0⟩)
            linarith
      have himin : isMult 4 (min p.rate q.rate) := by
        rcases le_total p.rate q.rate with h | h
        · rw [min_eq_left h]
          exact hp ▸ roundTo_isMult 4 p.rate
        · rw [min_eq_right h]
          exact hq ▸ roundTo_isMult 4 q.rate
      have himax : isMult 4 (max p.rate q.rate) := by
        rcases le_total p.rate q.rate with h | h
        · rw [max_eq_right h]
          exact hq ▸ roundTo_isMult 4 q.rate
        · rw [max_eq_left h]
          exact hp ▸ roundTo_isMult 4 p.rate
      exact roundTo_mem_of_mult himin himax hbounds.1 hbounds.2

/-! ### Claims -/

/-- C1, counterexample: the spec's fallback rule would resolve the meeting
date 2026-01-15 to the first curve month ≥ 2026-01 (namely 2026-02, rate 3),
but `compute_after_meeting_curve` emits nothing for it: a date whose exact
month is absent is always skipped. -/
theorem C1_counterexample :
    resolve_month_spec [(⟨2026, 2⟩, (3 : ℚ))] ⟨2026, 1⟩ =
      some (⟨2026, 2⟩, (3 : ℚ)) ∧
    compute_after_meeting_curve [(⟨2026, 2⟩, (3 : ℚ))] [⟨2026, 1, 15⟩]
      3 25 = [] := by
  constructor
  · simp [resolve_month_spec, mkey, List.insertionSort]
  · have hm : month_to_rate [(⟨2026, 2⟩, (3 : ℚ))]
        (ym_from_date ⟨2026, 1, 15⟩) = none := by
      simp [month_to_rate, ym_from_date]
    rw [compute_eq_loop, sortDates_singleton, loop_cons_none hm]
    rfl

/-- C1, amended: a meeting date whose exact calendar month has no monthly
rate point is skipped outright — it emits nothing and leaves the running
anchor unchanged — regardless of any later months in the curve; equivalently
the engine behaves as if unresolvable dates were filtered out.  (The
"first month ≥ ym" fallback of the claim does not exist; a following-month
proxy appears only inside the stability guard.) -/
theorem C1_theorem :
    (∀ (curve : List (Ym × ℚ)) (inc : ℤ) (prev : ℚ) (a : Date)
      (ds : List Date),
      month_to_rate curve (ym_from_date a) = none →
      after_meeting_loop curve inc prev (a :: ds) =
        after_meeting_loop curve inc prev ds) ∧
    (∀ (curve : List (Ym × ℚ)) (dates : List Date) (cur : ℚ) (inc : ℤ),
      compute_after_meeting_curve curve dates cur inc =
        after_meeting_loop curve inc cur
          ((sortDates dates).filter
            (fun a => (month_to_rate curve (ym_from_date a)).isSome))) := by
  constructor
  · intro curve inc prev a ds hm
    exact loop_cons_none hm
  · intro curve dates cur inc
    rw [compute_eq_loop, loop_skips_unresolved]

/-- C1, witness for the amended theorem at a concrete input. -/
theorem C1_witness :
    month_to_rate [(⟨2026, 2⟩, (3 : ℚ))] (ym_from_date ⟨2026, 1, 15⟩) =
      none ∧
    after_meeting_loop [(⟨2026, 2⟩, (3 : ℚ))] 25 3 [⟨2026, 1, 15⟩] =
      after_meeting_loop [(⟨2026, 2⟩, (3 : ℚ))] 25 3 [] := by
  have hm : month_to_rate [(⟨2026, 2⟩, (3 : ℚ))]
      (ym_from_date ⟨2026, 1, 15⟩) = none := by
    simp [month_to_rate, ym_from_date]
  exact ⟨hm, C1_theorem.1 _ _ _ _ _ hm⟩

/-- C2, counterexample: a single meeting on the 1st of its month
(`weightAfter = 1 > 1e-9`) whose back-solved move trips the stability guard:
curve rate 0 for 2026-01, current rate 4.  The claim requires the returned
`rateAfterRaw` to be the month rate 0; the code clamps to 1. -/
theorem C2_counterexample :
    (compute_after_meeting_curve [(⟨2026, 1⟩, (0 : ℚ))] [⟨2026, 1, 1⟩]
      4 25).map (fun p => p.rateRaw) = [1] ∧
    w_after (⟨2026, 1, 1⟩ : Date) = 1 ∧ (1 : ℚ) ≠ 0 := by
  have hm : month_to_rate [(⟨2026, 1⟩, (0 : ℚ))]
      (ym_from_date ⟨2026, 1, 1⟩) = some 0 := by
    simp [month_to_rate, ym_from_date]
  have hbs : back_solve 0 4 ⟨2026, 1, 1⟩ = 0 := back_solve_day_one rfl
  have htrig : days_after (⟨2026, 1, 1⟩ : Date) < 5 ∨
      300 < |(back_solve 0 4 ⟨2026, 1, 1⟩ - 4) * 100| := by
    right
    rw [hbs]
    norm_num
  have hn : month_to_rate [(⟨2026, 1⟩, (0 : ℚ))]
      (next_month_ym (ym_from_date ⟨2026, 1, 1⟩)) = none := by
    simp [month_to_rate, next_month_ym, ym_from_date]
  have hraw : rate_after_raw [(⟨2026, 1⟩, (0 : ℚ))] 4 ⟨2026, 1, 1⟩ 0 = 1 := by
    rw [rate_after_raw_guard_clamp htrig hn, hbs]
    norm_num
  refine ⟨?_, ?_, by norm_num⟩
  · rw [compute_eq_loop, sortDates_singleton, loop_cons_some hm]
    simp only [after_meeting_loop, List.map_cons, List.map_nil,
      mk_meeting_point_rateRaw, hraw]
    rw [roundTo_eq_self ⟨1000000, by norm_num⟩]
  · unfold w_after
    rw [w_before_day_one rfl]
    norm_num

/-- C2, amended: the pre-guard back-solve satisfies the claimed formula
(`(monthRate − weightBefore·prev)/weightAfter` when `weightAfter > 1e-9`,
`monthRate` otherwise); the emitted `rateAfterRaw` equals that value —
rounded to 6 decimals in the output record — whenever the stability guards
do not trigger; and a single meeting date on the 1st of its month returns
`rateAfterRaw = monthRate` exactly provided the guard move bound
`|monthRate − currentRate|·100 ≤ 300` holds and `monthRate` is
6-decimal-representable. -/
theorem C2_theorem :
    (∀ (r prev : ℚ) (a : Date), 1/1000000000 < w_after a →
      back_solve r prev a = (r - w_before a * prev) / w_after a) ∧
    (∀ (r prev : ℚ) (a : Date), w_after a ≤ 1/1000000000 →
      back_solve r prev a = r) ∧
    (∀ (curve : List (Ym × ℚ)) (prev : ℚ) (a : Date) (r : ℚ),
      ¬ days_after a < 5 →
      ¬ 300 < |(back_solve r prev a - prev) * 100| →
      rate_after_raw curve prev a r = back_solve r prev a) ∧
    (∀ (curve : List (Ym × ℚ)) (a : Date) (r cur : ℚ) (inc : ℤ),
      a.d = 1 → month_to_rate curve (ym_from_date a) = some r →
      ¬ 300 < |(r - cur) * 100| → roundTo 6 r = r →
      (compute_after_meeting_curve curve [a] cur inc).map
        (fun p => p.rateRaw) = [r]) := by
  refine ⟨?_, ?_, ?_, ?_⟩
  · intro r prev a h
    unfold back_solve
    rw [if_neg (not_le.mpr h)]
  · intro r prev a h
    unfold back_solve
    rw [if_pos h]
  · intro curve prev a r h1 h2
    exact rate_after_raw_no_guard h1 h2
  · intro curve a r cur inc hd hm hmove hr6
    have hbs : back_solve r cur a = r := back_solve_day_one hd
    have hng : ¬ days_after a < 5 := by
      rw [days_after_day_one hd]
      have := days_in_month_ge_28 a.y a.m
      omega
    have hraw : rate_after_raw curve cur a r = r := by
      rw [rate_after_raw_no_guard hng (by rw [hbs]; exact hmove), hbs]
    rw [compute_eq_loop, sortDates_singleton, loop_cons_some hm]
    simp only [after_meeting_loop, List.map_cons, List.map_nil,
      mk_meeting_point_rateRaw, hraw, hr6]

/-- C2, witness for the amended theorem at a concrete input (the spec's own
scenario family: January meeting on the 1st, month rate 3.9, current rate
4). -/
theorem C2_witness :
    (⟨2026, 1, 1⟩ : Date).d = 1 ∧
    month_to_rate [(⟨2026, 1⟩, (39/10 : ℚ))] (ym_from_date ⟨2026, 1, 1⟩) =
      some (39/10) ∧
    ¬ (300 : ℚ) < |((39/10 : ℚ) - 4) * 100| ∧
    roundTo 6 (39/10 : ℚ) = 39/10 ∧
    (compute_after_meeting_curve [(⟨2026, 1⟩, (39/10 : ℚ))] [⟨2026, 1, 1⟩]
      4 25).map (fun p => p.rateRaw) = [39/10] := by
  have h1 : (⟨2026, 1, 1⟩ : Date).d = 1 := rfl
  have h2 : month_to_rate [(⟨2026, 1⟩, (39/10 : ℚ))]
      (ym_from_date ⟨2026, 1, 1⟩) = some (39/10) := by
    simp [month_to_rate, ym_from_date]
  have h3 : ¬ (300 : ℚ) < |((39/10 : ℚ) - 4) * 100| := by
    rw [not_lt]
    rw [abs_le]
    constructor <;> norm_num
  have h4 : roundTo 6 (39/10 : ℚ) = 39/10 :=
    roundTo_eq_self ⟨3900000, by norm_num⟩
  exact ⟨h1, h2, h3, h4, C2_theorem.2.2.2 _ _ _ _ _ h1 h2 h3 h4⟩

/-- C4, counterexample: with `incrementBp = 0` the anchor threaded to the
next date is the unsnapped `r_after` (here 1/3), while the emitted
`rateAfter` is its 6-decimal rounding 0.333333.  Both meetings fall on the
1st, so each raw rate is the month rate independent of the anchor; had the
anchor been the first point's emitted `rateAfter`, the second point's
`moveRawBps` would be `roundTo 4 ((2000003/6000000 − 0.333333)·100) =
0.0001`, but the code produces 0. -/
theorem C4_counterexample :
    ((compute_after_meeting_curve
        [(⟨2026, 1⟩, (1/3 : ℚ)), (⟨2026, 2⟩, (2000003/6000000 : ℚ))]
        [⟨2026, 1, 1⟩, ⟨2026, 2, 1⟩] 0 0).map
      (fun p => (p.rateAfter, p.moveRawBps))) =
      [(333333/1000000, 333333/10000), (166667/500000, 0)] ∧
    roundTo 4 (((2000003/6000000 : ℚ) - 333333/1000000) * 100) = 1/10000 ∧
    (1/10000 : ℚ) ≠ 0 := by
  have hm1 : month_to_rate
      [(⟨2026, 1⟩, (1/3 : ℚ)), (⟨2026, 2⟩, (2000003/6000000 : ℚ))]
      (ym_from_date ⟨2026, 1, 1⟩) = some (1/3) := by
    simp [month_to_rate, ym_from_date]
  have hm2 : month_to_rate
      [(⟨2026, 1⟩, (1/3 : ℚ)), (⟨2026, 2⟩, (2000003/6000000 : ℚ))]
      (ym_from_date ⟨2026, 2, 1⟩) = some (2000003/6000000) := by
    simp [month_to_rate, ym_from_date]
  have hsort : sortDates [⟨2026, 1, 1⟩, ⟨2026, 2, 1⟩] =
      [⟨2026, 1, 1⟩, ⟨2026, 2, 1⟩] := by
    norm_num [sortDates, List.insertionSort, List.orderedInsert, dkey]
  have hrti : ∀ r : ℚ, round_to_increment r 0 = r := by
    intro r
    unfold round_to_increment
    norm_num
  have hng1 : ¬ days_after (⟨2026, 1, 1⟩ : Date) < 5 := by
    rw [days_after_day_one rfl]
    norm_num [days_in_month]
  have hng2 : ¬ days_after (⟨2026, 2, 1⟩ : Date) < 5 := by
    rw [days_after_day_one rfl]
    norm_num [days_in_month, isLeap]
  have hraw1 : rate_after_raw
      [(⟨2026, 1⟩, (1/3 : ℚ)), (⟨2026, 2⟩, (2000003/6000000 : ℚ))]
      0 ⟨2026, 1, 1⟩ (1/3) = 1/3 := by
    rw [rate_after_raw_no_guard hng1, back_solve_day_one rfl]
    rw [back_solve_day_one rfl]
    rw [abs_of_nonneg (by norm_num)]
    norm_num
  have hraw2 : rate_after_raw
      [(⟨2026, 1⟩, (1/3 : ℚ)), (⟨2026, 2⟩, (2000003/6000000 : ℚ))]
      (1/3) ⟨2026, 2, 1⟩ (2000003/6000000) = 2000003/6000000 := by
    rw [rate_after_raw_no_guard hng2, back_solve_day_one rfl]
    rw [back_solve_day_one rfl]
    rw [abs_of_nonneg (by norm_num)]
    norm_num
  refine ⟨?_, ?_, by norm_num⟩
  · rw [compute_eq_loop, hsort, loop_cons_some hm1, hraw1, hrti,
      loop_cons_some hm2, hraw2, hrti]
    simp only [after_meeting_loop, List.map_cons, List.map_nil,
      mk_meeting_point, hraw1, hraw2, hrti]
    norm_num [roundTo, rhe]
  · norm_num [roundTo, rhe]

/-- C4, amended: `computeAfterMeetingCurve` is the fold
`after_meeting_loop` over the sorted meeting dates starting from the
supplied current rate; output dates are in chronological order; a skipped
date emits nothing and leaves the anchor unchanged; and with a positive
`incrementBp` the emitted snapped `rateAfter` is exactly the anchor for the
next date (with `incrementBp ≤ 0` the anchor is the unsnapped rate while
the emitted field is its 6-decimal rounding). -/
theorem C4_theorem :
    (∀ (curve : List (Ym × ℚ)) (dates : List Date) (cur : ℚ) (inc : ℤ),
      compute_after_meeting_curve curve dates cur inc =
        after_meeting_loop curve inc cur (sortDates dates)) ∧
    (∀ (curve : List (Ym × ℚ)) (dates : List Date) (cur : ℚ) (inc : ℤ),
      ((compute_after_meeting_curve curve dates cur inc).map
        (fun p => p.meetingDate)).Pairwise (fun a b => dkey a ≤ dkey b)) ∧
    (∀ (curve : List (Ym × ℚ)) (inc : ℤ) (prev : ℚ) (a : Date)
      (ds : List Date),
      month_to_rate curve (ym_from_date a) = none →
      after_meeting_loop curve inc prev (a :: ds) =
        after_meeting_loop curve inc prev ds) ∧
    (∀ (curve : List (Ym × ℚ)) (inc : ℤ) (prev : ℚ) (a : Date)
      (ds : List Date) (r : ℚ), 0 < inc →
      month_to_rate curve (ym_from_date a) = some r →
      after_meeting_loop curve inc prev (a :: ds) =
        mk_meeting_point curve inc prev a r ::
          after_meeting_loop curve inc
            (mk_meeting_point curve inc prev a r).rateAfter ds) := by
  refine ⟨compute_eq_loop, ?_, ?_, ?_⟩
  · intro curve dates cur inc
    rw [compute_eq_loop]
    exact (sortDates_sorted dates).sublist
      (loop_map_date_sublist curve inc (sortDates dates) cur)
  · intro curve inc prev a ds hm
    exact loop_cons_none hm
  · intro curve inc prev a ds r hpos hm
    rw [loop_cons_some hm, rateAfter_eq_anchor hpos]

/-- C4, witness for the amended theorem at a concrete input. -/
theorem C4_witness :
    ((0 : ℤ) < 25) ∧
    month_to_rate [(⟨2026, 1⟩, (1/3 : ℚ))] (ym_from_date ⟨2026, 1, 1⟩) =
      some (1/3) ∧
    after_meeting_loop [(⟨2026, 1⟩, (1/3 : ℚ))] 25 0
      [⟨2026, 1, 1⟩, ⟨2026, 3, 15⟩] =
      mk_meeting_point [(⟨2026, 1⟩, (1/3 : ℚ))] 25 0 ⟨2026, 1, 1⟩ (1/3) ::
        after_meeting_loop [(⟨2026, 1⟩, (1/3 : ℚ))] 25
          (mk_meeting_point [(⟨2026, 1⟩, (1/3 : ℚ))] 25 0 ⟨2026, 1, 1⟩
            (1/3)).rateAfter [⟨2026, 3, 15⟩] := by
  have hpos : (0 : ℤ) < 25 := by decide
  have hm : month_to_rate [(⟨2026, 1⟩, (1/3 : ℚ))]
      (ym_from_date ⟨2026, 1, 1⟩) = some (1/3) := by
    simp [month_to_rate, ym_from_date]
  exact ⟨hpos, hm, C4_theorem.2.2.2 _ _ _ _ _ _ hpos hm⟩

/-- C5: when a meeting date triggers a stability guard (fewer than 5 days
after the meeting in its month, or an implied move of more than 300 bp), the
raw rate is replaced by the following month's rate when that month is in the
curve, and otherwise clamped into `[prev − 3, prev + 3]`; the substitution
is a total computation (no error path exists in the embedding). -/
theorem C5_theorem :
    ∀ (curve : List (Ym × ℚ)) (inc : ℤ) (prev : ℚ) (a : Date) (r : ℚ),
      (days_after a < 5 ∨ 300 < |(back_solve r prev a - prev) * 100|) →
      ((∀ rn : ℚ, month_to_rate curve (next_month_ym (ym_from_date a)) =
          some rn →
        rate_after_raw curve prev a r = rn ∧
        (mk_meeting_point curve inc prev a r).rateRaw = roundTo 6 rn) ∧
      (month_to_rate curve (next_month_ym (ym_from_date a)) = none →
        rate_after_raw curve prev a r =
          max (min (back_solve r prev a) (prev + 3)) (prev - 3) ∧
        prev - 3 ≤ rate_after_raw curve prev a r ∧
        rate_after_raw curve prev a r ≤ prev + 3)) := by
  intro curve inc prev a r htrig
  constructor
  · intro rn hn
    have h := rate_after_raw_guard_next htrig hn
    exact ⟨h, by rw [mk_meeting_point_rateRaw, h]⟩
  · intro hn
    have h := rate_after_raw_guard_clamp htrig hn
    refine ⟨h, ?_, ?_⟩
    · rw [h]
      exact le_max_right _ _
    · rw [h]
      apply max_le (le_trans (min_le_right _ _) (by linarith))
      linarith

/-- C3, counterexample: a zero `incrementBp` does not raise anywhere a
positive step is needed — `_round_to_increment` returns the rate unchanged
and `compute_distribution_from_expected` returns a normal point-mass
distribution, where the claim demands a fatal `ConfigurationError` with no
output. -/
theorem C3_counterexample :
    round_to_increment (7/2) 0 = 7/2 ∧
    compute_distribution_from_expected (337/100) 0 0 10 =
      [(337/100, 1)] := by
  constructor
  · unfold round_to_increment
    norm_num
  · exact dist_step_nonpos le_rfl

/-- C3, amended: an unknown `priceFormula` raises a fatal error surfaced to
the caller with no output (the two known formulas return normally), but a
zero or negative `incrementBp` does not raise: `_round_to_increment`
silently returns the rate unchanged and the distribution builder returns the
point mass `{expectedRate: 1.0}`. -/
theorem C3_theorem :
    (∀ (p : ℚ) (f : String), f ≠ "100_minus_rate" → f ≠ "rate_direct" →
      implied_rate_from_price p f =
        Except.error ("Unknown price_formula: " ++ f)) ∧
    (∀ p : ℚ, implied_rate_from_price p "100_minus_rate" =
      Except.ok (100 - p)) ∧
    (∀ p : ℚ, implied_rate_from_price p "rate_direct" = Except.ok p) ∧
    (∀ (r : ℚ) (inc : ℤ), inc ≤ 0 → round_to_increment r inc = r) ∧
    (∀ (e : ℚ) (inc : ℤ) (minr maxr : ℚ), inc ≤ 0 →
      compute_distribution_from_expected e inc minr maxr = [(e, 1)]) := by
  refine ⟨?_, ?_, ?_, ?_, ?_⟩
  · intro p f h1 h2
    unfold implied_rate_from_price
    rw [if_neg h1, if_neg h2]
  · intro p
    rfl
  · intro p
    rfl
  · intro r inc h
    unfold round_to_increment
    rw [if_pos]
    exact step_nonpos h
  · intro e inc minr maxr h
    exact dist_step_nonpos h

/-- C3, witness for the amended theorem at concrete inputs. -/
theorem C3_witness :
    ("bogus" : String) ≠ "100_minus_rate" ∧
    ("bogus" : String) ≠ "rate_direct" ∧
    implied_rate_from_price 95 "bogus" =
      Except.error ("Unknown price_formula: " ++ "bogus") ∧
    ((-25 : ℤ) ≤ 0) ∧
    round_to_increment (7/2) (-25) = 7/2 ∧
    compute_distribution_from_expected (337/100) (-25) 0 10 =
      [(337/100, 1)] := by
  have ha : ("bogus" : String) ≠ "100_minus_rate" := by decide
  have hb : ("bogus" : String) ≠ "rate_direct" := by decide
  have hc : (-25 : ℤ) ≤ 0 := by decide
  exact ⟨ha, hb, C3_theorem.1 95 "bogus" ha hb, hc,
    C3_theorem.2.2.2.1 (7/2) (-25) hc,
    C3_theorem.2.2.2.2 (337/100) (-25) 0 10 hc⟩

/-- C6, counterexample: for a negative clamped expected rate the claim's
`lo = floor(expectedRate/step) × step` disagrees with the code, which
truncates toward zero (`int(x/step)`): at `expectedRate = -0.1`,
`incrementBp = 25`, grid `[-1, 10]`, the code returns
`{0.0: 1.4, 0.25: -0.4}` while the claimed formula gives
`{-0.25: 0.4, 0.0: 0.6}`. -/
theorem C6_counterexample :
    compute_distribution_from_expected (-1/10) 25 (-1) 10 =
      [(0, 7/5), (1/4, -(2/5))] ∧
    distribution_spec (-1/10) 25 (-1) 10 =
      [(-(1/4), 2/5), (0, 3/5)] ∧
    compute_distribution_from_expected (-1/10) 25 (-1) 10 ≠
      distribution_spec (-1/10) 25 (-1) 10 := by
  have h1 : compute_distribution_from_expected (-1/10) 25 (-1) 10 =
      [(0, 7/5), (1/4, -(2/5))] := by
    norm_num [compute_distribution_from_expected, step_from_increment,
      pyclamp, floor_to_step, qtrunc, roundTo, rhe, min_def, max_def,
      abs_of_nonneg, abs_of_nonpos]
  have h2 : distribution_spec (-1/10) 25 (-1) 10 =
      [(-(1/4), 2/5), (0, 3/5)] := by
    norm_num [distribution_spec, step_from_increment, pyclamp, roundTo,
      rhe, min_def, max_def, abs_of_nonneg, abs_of_nonpos]
  refine ⟨h1, h2, ?_⟩
  rw [h1, h2]
  intro h
  have := List.head_eq_of_cons_eq h
  simp at this

/-- C6, amended: the code computes `lo` by truncating `expectedRate/step`
toward zero, which agrees with the claimed floor form exactly when the
clamped expected rate is non-negative; under that hypothesis the whole
claimed contract (point mass on coincidence or grid-collapse, two-level
linear split otherwise) holds, and the spec's example 3.37/25bp yields
`{3.25: 0.52, 3.50: 0.48}`. -/
theorem C6_theorem :
    (∀ (e : ℚ) (inc : ℤ) (minr maxr : ℚ), 0 ≤ pyclamp e minr maxr →
      compute_distribution_from_expected e inc minr maxr =
        distribution_spec e inc minr maxr) ∧
    compute_distribution_from_expected (337/100) 25 0 10 =
      [(13/4, 13/25), (7/2, 12/25)] := by
  constructor
  · intro e inc minr maxr hcl
    simp only [compute_distribution_from_expected, distribution_spec]
    by_cases hs : step_from_increment inc ≤ 0
    · rw [if_pos hs, if_pos hs]
    · rw [if_neg hs, if_neg hs]
      have hstep : 0 < step_from_increment inc := lt_of_not_le hs
      have hfl : floor_to_step (pyclamp e minr maxr)
          (step_from_increment inc) =
          (⌊pyclamp e minr maxr / step_from_increment inc⌋ : ℚ) *
            step_from_increment inc := by
        unfold floor_to_step
        rw [qtrunc_eq_floor (div_nonneg hcl (le_of_lt hstep))]
      rw [hfl]
  · norm_num [compute_distribution_from_expected, step_from_increment,
      pyclamp, floor_to_step, qtrunc, roundTo, rhe, min_def, max_def,
      abs_of_nonneg, abs_of_nonpos]

/-- C6, witness for the amended theorem at the spec's example input. -/
theorem C6_witness :
    (0 : ℚ) ≤ pyclamp (337/100) 0 10 ∧
    compute_distribution_from_expected (337/100) 25 0 10 =
      distribution_spec (337/100) 25 0 10 := by
  have h : (0 : ℚ) ≤ pyclamp (337/100) 0 10 := by
    norm_num [pyclamp, min_def, max_def]
  exact ⟨h, C6_theorem.1 (337/100) 25 0 10 h⟩

/-- C7, counterexample: with `incrementBp = 0` the distribution builder
returns a normal point mass but `probs_cut_hold_hike` divides by the zero
step in `_floor_to_step` and raises `ZeroDivisionError` (modelled `none`),
so no cut/hold/hike probabilities summing to 1 are returned. -/
theorem C7_counterexample :
    probs_cut_hold_hike
      (compute_distribution_from_expected (337/100) 0 0 10) 3 0 = none := by
  unfold probs_cut_hold_hike
  rw [if_pos]
  unfold step_from_increment
  norm_num

/-- C7, amended: the probabilities of every distribution returned by
`compute_distribution_from_expected` sum to 1 within 1e-9 (in the exact
model: to 1 exactly), and `probs_cut_hold_hike` of such a distribution
returns cut/hold/hike probabilities summing to 1 within 1e-9 whenever
`incrementBp ≠ 0`; at `incrementBp = 0` it raises `ZeroDivisionError`. -/
theorem C7_theorem :
    (∀ (e : ℚ) (inc : ℤ) (minr maxr : ℚ),
      |((compute_distribution_from_expected e inc minr maxr).map
        (fun lp => lp.2)).sum - 1| ≤ 1/1000000000) ∧
    (∀ (e : ℚ) (inc : ℤ) (minr maxr cur : ℚ) (inc2 : ℤ), inc2 ≠ 0 →
      (probs_cut_hold_hike
        (compute_distribution_from_expected e inc minr maxr)
        cur inc2).isSome ∧
      |sum3 (probs_cut_hold_hike
        (compute_distribution_from_expected e inc minr maxr) cur inc2) - 1|
        ≤ 1/1000000000) := by
  constructor
  · intro e inc minr maxr
    rw [dist_sum_one]
    norm_num
  · intro e inc minr maxr cur inc2 h2
    have hstep : ¬ step_from_increment inc2 = 0 := by
      unfold step_from_increment
      rw [div_eq_zero_iff]
      push_neg
      constructor
      · exact_mod_cast h2
      · norm_num
    have hmem : ∀ q : ℚ × ℚ → Bool,
        isMult 6 (((compute_distribution_from_expected e inc minr
          maxr).filter q).map (fun lp => lp.2)).sum := by
      intro q
      apply isMult_sum
      intro x hx
      rcases List.mem_map.mp hx with ⟨lp, hlp, hval⟩
      rw [← hval]
      exact dist_values_isMult e inc minr maxr lp
        (List.mem_of_mem_filter hlp)
    unfold probs_cut_hold_hike
    rw [if_neg hstep]
    refine ⟨rfl, ?_⟩
    simp only [sum3]
    rw [roundTo_eq_self (hmem _), roundTo_eq_self (hmem _),
      roundTo_eq_self (hmem _)]
    have hsum := filter_three_sum
      (compute_distribution_from_expected e inc minr maxr)
      (roundTo 6 (floor_to_step (cur + 1/1000000000000)
        (step_from_increment inc2)))
      (1/1000000000000) (by linarith)
    rw [dist_sum_one] at hsum
    rw [hsum]
    norm_num

/-- C7, witness for the amended theorem at a concrete input. -/
theorem C7_witness :
    ((25 : ℤ) ≠ 0) ∧
    (probs_cut_hold_hike
      (compute_distribution_from_expected (337/100) 25 0 10) 3 25).isSome ∧
    |sum3 (probs_cut_hold_hike
      (compute_distribution_from_expected (337/100) 25 0 10) 3 25) - 1|
      ≤ 1/1000000000 := by
  have h : (25 : ℤ) ≠ 0 := by decide
  exact ⟨h, (C7_theorem.2 (337/100) 25 0 10 3 25 h).1,
    (C7_theorem.2 (337/100) 25 0 10 3 25 h).2⟩

/-- C8, counterexample: `pick_one_per_month_max_volume` re-sorts the output
by month, so for a duplicate-free quote set that is not already sorted it is
not the identity. -/
theorem C8_counterexample :
    pick_one_per_month_max_volume
      [⟨"A", "", ⟨2026, 2⟩, 0, 10⟩, ⟨"B", "", ⟨2026, 1⟩, 0, 5⟩] =
      [⟨"B", "", ⟨2026, 1⟩, 0, 5⟩, ⟨"A", "", ⟨2026, 2⟩, 0, 10⟩] ∧
    ([⟨"B", "", ⟨2026, 1⟩, 0, 5⟩, ⟨"A", "", ⟨2026, 2⟩, 0, 10⟩] :
        List Row) ≠
      [⟨"A", "", ⟨2026, 2⟩, 0, 10⟩, ⟨"B", "", ⟨2026, 1⟩, 0, 5⟩] := by
  constructor
  · simp [pick_one_per_month_max_volume, sorted_months, best_by_month,
      dict_step, upd, List.insertionSort, List.orderedInsert, mkey,
      List.dedup, List.pwFilter, List.filterMap_cons]
  · intro h
    injection h with h1 _
    have : ("B" : String) = "A" := congrArg Row.symbol h1
    exact absurd this (by decide)

/-- C8, amended: for a duplicate-free quote set the selection keeps every
row, re-sorted in ascending month order (hence the identity exactly on
inputs already sorted by month); in general the row kept for a month is the
first-seen row of maximum volume in its month group (every earlier row of
the group has strictly smaller volume, every later one is no larger), and
the output is always sorted by month. -/
theorem C8_theorem :
    (∀ rows : List Row,
      (rows.map (fun r => r.month)).Nodup →
      (rows.map (fun r => r.month)).Pairwise (fun a b => mkey a ≤ mkey b) →
      pick_one_per_month_max_volume rows = rows) ∧
    (∀ (rows : List Row) (m : Ym),
      rows.filter (fun r => r.month = m) ≠ [] →
      ∃ c pre post, best_by_month rows m = some c ∧
        rows.filter (fun r => r.month = m) = pre ++ c :: post ∧
        (∀ x ∈ pre, x.volume < c.volume) ∧
        (∀ x ∈ post, x.volume ≤ c.volume)) ∧
    (∀ rows : List Row,
      ((pick_one_per_month_max_volume rows).map
        (fun r => r.month)).Pairwise (fun a b => mkey a ≤ mkey b)) := by
  refine ⟨?_, best_by_month_spec, ?_⟩
  · intro rows hnd hs
    unfold pick_one_per_month_max_volume sorted_months
    rw [List.dedup_eq_self.mpr hnd, List.Sorted.insertionSort_eq hs]
    exact filterMap_best_sorted_rows rows hnd
  · intro rows
    exact (List.sorted_insertionSort _ _).sublist
      (filterMap_best_months_sublist rows _)

/-- C8, witness: the identity case of the amended theorem at a concrete
sorted, duplicate-free input. -/
theorem C8_witness :
    (([⟨"B", "", ⟨2026, 1⟩, 0, 5⟩, ⟨"A", "", ⟨2026, 2⟩, 0, 10⟩] :
      List Row).map (fun r => r.month)).Nodup ∧
    (([⟨"B", "", ⟨2026, 1⟩, 0, 5⟩, ⟨"A", "", ⟨2026, 2⟩, 0, 10⟩] :
      List Row).map (fun r => r.month)).Pairwise
        (fun a b => mkey a ≤ mkey b) ∧
    pick_one_per_month_max_volume
      [⟨"B", "", ⟨2026, 1⟩, 0, 5⟩, ⟨"A", "", ⟨2026, 2⟩, 0, 10⟩] =
      [⟨"B", "", ⟨2026, 1⟩, 0, 5⟩, ⟨"A", "", ⟨2026, 2⟩, 0, 10⟩] := by
  have h1 : (([⟨"B", "", ⟨2026, 1⟩, 0, 5⟩, ⟨"A", "", ⟨2026, 2⟩, 0, 10⟩] :
      List Row).map (fun r => r.month)).Nodup := by
    simp [mkey]
  have h2 : (([⟨"B", "", ⟨2026, 1⟩, 0, 5⟩, ⟨"A", "", ⟨2026, 2⟩, 0, 10⟩] :
      List Row).map (fun r => r.month)).Pairwise
        (fun a b => mkey a ≤ mkey b) := by
    simp [mkey]
  exact ⟨h1, h2, C8_theorem.1 _ h1 h2⟩

/-- C9: the spec-modelled `densifyLinear` returns inputs with fewer than two
points unchanged, keeps every input point (same rate, same order — the input
is a sublist of the output), marks everything it adds as synthetic with no
source quote, and every added point sits strictly between two adjacent
input points in month-index space with its rate between their rates
(assuming the input rates are 4-decimal values, as `buildCurve` produces). -/
theorem C9_theorem :
    (∀ c : List MRPoint, c.length < 2 → densify_linear c = c) ∧
    (∀ c : List MRPoint, c.Sublist (densify_linear c)) ∧
    (∀ (c : List MRPoint) (x : MRPoint), x ∈ densify_linear c →
      x ∈ c ∨ (x.isSynthetic = true ∧ x.sourceQuote = none)) ∧
    (∀ (c : List MRPoint) (x : MRPoint),
      (∀ p ∈ c, roundTo 4 p.rate = p.rate) → x ∈ densify_linear c →
      x ∈ c ∨ ∃ a b, (a, b) ∈ c.zip c.tail ∧
        min a.rate b.rate ≤ x.rate ∧ x.rate ≤ max a.rate b.rate ∧
        month_index a.month < month_index x.month ∧
        month_index x.month < month_index b.month) := by
  refine ⟨?_, ?_, ?_, ?_⟩
  · intro c hlen
    match c with
    | [] => rfl
    | [p] => rfl
    | p :: q :: rest =>
        simp only [List.length_cons] at hlen
        omega
  · intro c
    match c with
    | [] => exact List.Sublist.refl _
    | [p] => exact List.Sublist.refl _
    | p :: q :: rest =>
        exact (densify_aux_sublist (q :: rest) p).cons₂ p
  · intro c x hx
    rcases densify_mem c x hx with h | ⟨a, b, _, hin⟩
    · exact Or.inl h
    · have := interp_points_spec hin
      exact Or.inr ⟨this.1, this.2.1⟩
  · intro c x h4 hx
    rcases densify_mem c x hx with h | ⟨a, b, hab, hin⟩
    · exact Or.inl h
    · right
      have hmem := List.of_mem_zip hab
      have hamem : a ∈ c := hmem.1
      have hbmem : b ∈ c := (List.tail_sublist c).subset hmem.2
      obtain ⟨hsyn, hsrc, hlo, hhi, hrate⟩ := interp_points_spec hin
      obtain ⟨hr1, hr2⟩ := hrate (h4 a hamem) (h4 b hbmem)
      exact ⟨a, b, hab, hr1, hr2, hlo, hhi⟩

set_option maxRecDepth 8000 in
/-- C9, witness: the degenerate case at a one-point curve, and the spec's
own densification scenario `[(2026-01, 4.00), (2026-04, 3.00)]`, where the
inserted 2026-02 point (rate 3.6667) lies between the two real rates and
strictly between the two real months. -/
theorem C9_witness :
    (([⟨⟨2026, 1⟩, 4, false, none⟩] : List MRPoint).length < 2) ∧
    densify_linear [⟨⟨2026, 1⟩, 4, false, none⟩] =
      [⟨⟨2026, 1⟩, 4, false, none⟩] ∧
    (∀ p ∈ ([⟨⟨2026, 1⟩, (4 : ℚ), false, none⟩,
        ⟨⟨2026, 4⟩, (3 : ℚ), false, none⟩] : List MRPoint),
      roundTo 4 p.rate = p.rate) ∧
    (⟨⟨2026, 2⟩, 36667/10000, true, none⟩ : MRPoint) ∈
      densify_linear [⟨⟨2026, 1⟩, (4 : ℚ), false, none⟩,
        ⟨⟨2026, 4⟩, (3 : ℚ), false, none⟩] ∧
    ((⟨⟨2026, 2⟩, 36667/10000, true, none⟩ : MRPoint) ∈
        ([⟨⟨2026, 1⟩, (4 : ℚ), false, none⟩,
          ⟨⟨2026, 4⟩, (3 : ℚ), false, none⟩] : List MRPoint) ∨
      ∃ a b, (a, b) ∈
          ([⟨⟨2026, 1⟩, (4 : ℚ), false, none⟩,
            ⟨⟨2026, 4⟩, (3 : ℚ), false, none⟩] : List MRPoint).zip
            ([⟨⟨2026, 1⟩, (4 : ℚ), false, none⟩,
              ⟨⟨2026, 4⟩, (3 : ℚ), false, none⟩] : List MRPoint).tail ∧
        min a.rate b.rate ≤ (36667/10000 : ℚ) ∧
        (36667/10000 : ℚ) ≤ max a.rate b.rate ∧
        month_index a.month < month_index (⟨2026, 2⟩ : Ym) ∧
        month_index (⟨2026, 2⟩ : Ym) < month_index b.month) := by
  have hlen : (([⟨⟨2026, 1⟩, 4, false, none⟩] : List MRPoint).length < 2) :=
    by norm_num
  have h4 : ∀ p ∈ ([⟨⟨2026, 1⟩, (4 : ℚ), false, none⟩,
      ⟨⟨2026, 4⟩, (3 : ℚ), false, none⟩] : List MRPoint),
      roundTo 4 p.rate = p.rate := by
    intro p hp
    rcases List.mem_cons.mp hp with rfl | hp'
    · exact roundTo_eq_self ⟨40000, by norm_num⟩
    · rcases List.mem_cons.mp hp' with rfl | hp''
      · exact roundTo_eq_self ⟨30000, by norm_num⟩
      · simp at hp''
  have hA : roundTo 4 (11/3 : ℚ) = 36667/10000 := by
    rw [roundTo_of_floor_gt (f := 36666) (by norm_num) (by norm_num)]
    norm_num
  have hB : roundTo 4 (10/3 : ℚ) = 33333/10000 := by
    rw [roundTo_of_floor_lt (f := 33333) (by norm_num) (by norm_num)]
    norm_num
  have hrange : List.range 2 = [0, 1] := by decide
  have heval : densify_linear [⟨⟨2026, 1⟩, (4 : ℚ), false, none⟩,
      ⟨⟨2026, 4⟩, (3 : ℚ), false, none⟩] =
      [⟨⟨2026, 1⟩, 4, false, none⟩,
        ⟨⟨2026, 2⟩, 36667/10000, true, none⟩,
        ⟨⟨2026, 3⟩, 33333/10000, true, none⟩,
        ⟨⟨2026, 4⟩, 3, false, none⟩] := by
    simp only [densify_linear, densify_aux, interp_points]
    norm_num [month_index, ym_of_index, hrange]
    exact ⟨hA, hB⟩
  have hmem : (⟨⟨2026, 2⟩, 36667/10000, true, none⟩ : MRPoint) ∈
      densify_linear [⟨⟨2026, 1⟩, (4 : ℚ), false, none⟩,
        ⟨⟨2026, 4⟩, (3 : ℚ), false, none⟩] := by
    rw [heval]
    simp
  exact ⟨hlen, C9_theorem.1 _ hlen, h4, hmem,
    C9_theorem.2.2.2 _ _ h4 hmem⟩

/-- C10, counterexample: the output of `strip_past_months` depends on the
ambient UTC clock, not only on the curve and a caller-supplied month — the
Python function takes no `nowMonth` parameter and calls `now_month_utc()`
itself; two runs with the same curve but different clock values differ. -/
theorem C10_counterexample :
    strip_past_months ⟨2026, 1⟩ [⟨⟨2026, 1⟩, 4, "ZQF26", 96, 100⟩] =
      [⟨⟨2026, 1⟩, 4, "ZQF26", 96, 100⟩] ∧
    strip_past_months ⟨2026, 2⟩ [⟨⟨2026, 1⟩, 4, "ZQF26", 96, 100⟩] = [] ∧
    strip_past_months ⟨2026, 1⟩ [⟨⟨2026, 1⟩, 4, "ZQF26", 96, 100⟩] ≠
      strip_past_months ⟨2026, 2⟩ [⟨⟨2026, 1⟩, 4, "ZQF26", 96, 100⟩] := by
  have h1 : strip_past_months ⟨2026, 1⟩
      [⟨⟨2026, 1⟩, 4, "ZQF26", 96, 100⟩] =
      [⟨⟨2026, 1⟩, 4, "ZQF26", 96, 100⟩] := by
    norm_num [strip_past_months, now_month_utc, mkey]
  have h2 : strip_past_months ⟨2026, 2⟩
      [⟨⟨2026, 1⟩, 4, "ZQF26", 96, 100⟩] = [] := by
    norm_num [strip_past_months, now_month_utc, mkey]
  refine ⟨h1, h2, ?_⟩
  rw [h1, h2]
  simp

/-- C10, amended: `strip_past_months` reads the current month from the
ambient UTC clock (modelled as the explicit `clock` input) rather than from
a caller-supplied parameter; for any fixed clock value it keeps exactly the
points not strictly before that month, preserving their order, and is a
pure function of the curve and the clock. -/
theorem C10_theorem :
    (∀ (clock : Ym) (curve : List CurvePoint) (p : CurvePoint),
      p ∈ strip_past_months clock curve ↔
        p ∈ curve ∧ ¬ mkey p.month < mkey (now_month_utc clock)) ∧
    (∀ (clock : Ym) (curve : List CurvePoint),
      (strip_past_months clock curve).Sublist curve) := by
  constructor
  · intro clock curve p
    unfold strip_past_months
    rw [List.mem_filter]
    simp [not_lt]
  · intro clock curve
    exact List.filter_sublist curve

/-- C5, witness: the clamp branch at a concrete input (curve rate 0 for the
meeting month, no following month, current rate 4: implied move −400 bp
trips the guard, clamp yields 1). -/
theorem C5_witness :
    (days_after (⟨2026, 1, 1⟩ : Date) < 5 ∨
      300 < |(back_solve 0 4 ⟨2026, 1, 1⟩ - 4) * 100|) ∧
    month_to_rate [(⟨2026, 1⟩, (0 : ℚ))]
      (next_month_ym (ym_from_date ⟨2026, 1, 1⟩)) = none ∧
    rate_after_raw [(⟨2026, 1⟩, (0 : ℚ))] 4 ⟨2026, 1, 1⟩ 0 =
      max (min (back_solve 0 4 ⟨2026, 1, 1⟩) (4 + 3)) (4 - 3) ∧
    (4 : ℚ) - 3 ≤ rate_after_raw [(⟨2026, 1⟩, (0 : ℚ))] 4 ⟨2026, 1, 1⟩ 0 ∧
    rate_after_raw [(⟨2026, 1⟩, (0 : ℚ))] 4 ⟨2026, 1, 1⟩ 0 ≤ 4 + 3 := by
  have htrig : days_after (⟨2026, 1, 1⟩ : Date) < 5 ∨
      300 < |(back_solve 0 4 ⟨2026, 1, 1⟩ - 4) * 100| := by
    right
    rw [back_solve_day_one rfl]
    norm_num
  have hn : month_to_rate [(⟨2026, 1⟩, (0 : ℚ))]
      (next_month_ym (ym_from_date ⟨2026, 1, 1⟩)) = none := by
    simp [month_to_rate, next_month_ym, ym_from_date]
  have h := (C5_theorem [(⟨2026, 1⟩, (0 : ℚ))] 25 4 ⟨2026, 1, 1⟩ 0 htrig).2 hn
  exact ⟨htrig, hn, h.1, h.2.1, h.2.2⟩

end Tradeboard
